import Mathlib

/-!
Verification development for the CSV deduplication pipeline
(`src/dedupe/csv_evaluation.py`) against its design specification.

The script itself is thin glue around a record-deduplication engine
(read CSV, clean columns, train, partition, write clustered rows).
The glue code under `src/` is embedded directly.  The engine
(comparators, classifier, clusterer, canonicalizer, model
serialization) is not part of the repository sources; those components
are modelled from the specification text, and every such definition is
marked `Modelled from the spec:` in its doc comment.

Python strings are embedded as `List Char`; missing values (pandas
`NaN` / `pd.NA`, python `None`) as `Option`; machine floats that the
script immediately casts to `Int64` as `Int`.
-/

namespace CsvDedupe

/-! ## Column cleaning (`read_data`, src/dedupe/csv_evaluation.py lines 23-38) -/

/-- Characters stripped by python `str.strip()` with no argument
(ASCII whitespace, as produced by `str.isspace` on ASCII input). -/
def isPySpace (c : Char) : Bool :=
  c == ' ' || c == '\t' || c == '\n' || c == '\r' || c == '\x0b' || c == '\x0c'

/-- The 26 ASCII uppercase letters paired with their lowercase forms,
the ASCII fragment of python `str.lower()`. -/
def lowerPairs : List (Char × Char) :=
  [('A','a'),('B','b'),('C','c'),('D','d'),('E','e'),('F','f'),('G','g'),
   ('H','h'),('I','i'),('J','j'),('K','k'),('L','l'),('M','m'),('N','n'),
   ('O','o'),('P','p'),('Q','q'),('R','r'),('S','s'),('T','t'),('U','u'),
   ('V','v'),('W','w'),('X','x'),('Y','y'),('Z','z')]

/-- ASCII lowercasing of one character (python `str.lower()`, ASCII fragment). -/
def toLowerAscii (c : Char) : Char :=
  match lowerPairs.find? (fun p => p.1 == c) with
  | some p => p.2
  | none => c

/-- `c` is an ASCII uppercase letter. -/
def isUpperAscii (c : Char) : Bool :=
  lowerPairs.any (fun p => p.1 == c)

/-- `leadsWith pat s` holds when `pat` is an initial segment of `s`
(the check python `str.startswith` performs at one position). -/
def leadsWith : List Char → List Char → Bool
  | [], _ => true
  | _ :: _, [] => false
  | p :: ps, c :: cs => p == c && leadsWith ps cs

/-- Literal substring replacement, scanning left to right, replacing
every non-overlapping occurrence: python `str.replace(pat, repl)` for a
non-empty literal `pat` (pandas `Series.str.replace` with a literal
pattern applies this per element). -/
def replaceList (pat repl : List Char) : List Char → List Char
  | [] => []
  | c :: rest =>
    if pat ≠ [] && leadsWith pat (c :: rest) then
      repl ++ replaceList pat repl (List.drop (pat.length - 1) rest)
    else
      c :: replaceList pat repl rest
  termination_by s => s.length
  decreasing_by
  · simp only [List.length_drop, List.length_cons]
    omega
  · simp only [List.length_cons]
    omega

/-- Strip characters satisfying `f` from both ends
(python `str.strip(...)`). -/
def stripBy (f : Char → Bool) (s : List Char) : List Char :=
  ((s.dropWhile f).reverse.dropWhile f).reverse

/-- The literal first argument of the script's
`df[col].str.replace("  +","")`: two spaces followed by `+`. -/
def doubleSpacePlus : List Char := [' ', ' ', '+']

/-- The per-value string cleaning pipeline of `read_data` for
object-dtype columns, in source order:
`replace("  +","")`, `replace("\n","")`, `strip()`, `strip('""')`,
`strip("'")`, `lower()`, `strip()`. -/
def clean_string_value (s : List Char) : List Char :=
  let s1 := replaceList doubleSpacePlus [] s
  let s2 := replaceList ['\n'] [] s1
  let s3 := stripBy isPySpace s2
  let s4 := stripBy (fun c => c == '"') s3
  let s5 := stripBy (fun c => c == '\'') s4
  let s6 := s5.map toLowerAscii
  stripBy isPySpace s6

/-- One cell of an object-dtype column after cleaning: pandas string
methods leave missing values missing and clean present strings. -/
def clean_object_value (v : Option (List Char)) : Option (List Char) :=
  v.map clean_string_value

/-- Decimal digit characters. -/
def digitChars : List Char := ['0','1','2','3','4','5','6','7','8','9']

/-- The decimal digit character for `d < 10`. -/
def digitChar : Nat → Char
  | 0 => '0' | 1 => '1' | 2 => '2' | 3 => '3' | 4 => '4'
  | 5 => '5' | 6 => '6' | 7 => '7' | 8 => '8' | _ => '9'

/-- Decimal digits of `n`, least significant first. -/
def natDigitsRev (n : Nat) : List Char :=
  if n < 10 then [digitChar n]
  else digitChar (n % 10) :: natDigitsRev (n / 10)
  decreasing_by
    rename_i h
    exact Nat.div_lt_self (by omega) (by omega)

/-- Decimal rendering of an integer, python `str(int)` /
pandas `astype(str)` on a present `Int64` value. -/
def int_to_decimal (n : Int) : List Char :=
  if n < 0 then '-' :: (natDigitsRev n.natAbs).reverse
  else (natDigitsRev n.toNat).reverse

/-- The string pandas produces for a missing `Int64` value under
`astype(str)`. -/
def naChars : List Char := ['<', 'N', 'A', '>']

/-- One cell of a float-dtype column after the script's
`astype("Int64").astype(str)` followed by
`df.loc[df[col].str.startswith("<NA>"), col] = None`
(src/dedupe/csv_evaluation.py lines 35-37). -/
def clean_float_value (v : Option Int) : Option (List Char) :=
  let s := match v with
    | none => naChars
    | some n => int_to_decimal n
  if leadsWith naChars s then none else some s

/-- `s` renders a decimal integer: digits, optionally preceded by one
minus sign. -/
def isDecimalIntString (s : List Char) : Prop :=
  (s ≠ [] ∧ ∀ c ∈ s, c ∈ digitChars) ∨
  (∃ t, s = '-' :: t ∧ t ≠ [] ∧ ∀ c ∈ t, c ∈ digitChars)

/-! ### Lemmas about the cleaning pipeline -/

theorem mem_stripBy {f : Char → Bool} {s : List Char} {c : Char}
    (h : c ∈ stripBy f s) : c ∈ s := by
  unfold stripBy at h
  rw [List.mem_reverse] at h
  have h2 := (List.dropWhile_sublist f).mem h
  rw [List.mem_reverse] at h2
  exact (List.dropWhile_sublist f).mem h2

theorem head?_dropWhile_false {α : Type} {f : α → Bool} {l : List α} {c : α}
    (h : (l.dropWhile f).head? = some c) : f c = false := by
  induction l with
  | nil => simp [List.dropWhile] at h
  | cons a l ih =>
    by_cases hf : f a
    · rw [List.dropWhile_cons_of_pos hf] at h
      exact ih h
    · rw [List.dropWhile_cons_of_neg hf] at h
      simp only [List.head?_cons, Option.some.injEq] at h
      subst h
      exact Bool.eq_false_iff.mpr hf

theorem getLast?_dropWhile_of_ne_nil {α : Type} (f : α → Bool) (l : List α)
    (h : l.dropWhile f ≠ []) : (l.dropWhile f).getLast? = l.getLast? := by
  obtain ⟨t, ht⟩ := List.dropWhile_suffix f (l := l)
  conv_rhs => rw [← ht]
  rw [List.getLast?_append]
  cases hx : (l.dropWhile f).getLast? with
  | none => exact absurd (List.getLast?_eq_none_iff.mp hx) h
  | some x => rfl

theorem head?_stripBy_false {f : Char → Bool} {s : List Char} {c : Char}
    (h : (stripBy f s).head? = some c) : f c = false := by
  unfold stripBy at h
  rw [List.head?_reverse] at h
  have hne : (s.dropWhile f).reverse.dropWhile f ≠ [] := by
    intro hnil
    rw [hnil] at h
    simp at h
  rw [getLast?_dropWhile_of_ne_nil f _ hne, List.getLast?_reverse] at h
  exact head?_dropWhile_false h

theorem getLast?_stripBy_false {f : Char → Bool} {s : List Char} {c : Char}
    (h : (stripBy f s).getLast? = some c) : f c = false := by
  unfold stripBy at h
  rw [List.getLast?_reverse] at h
  exact head?_dropWhile_false h

theorem not_mem_replaceList_single (p : Char) (s : List Char) :
    p ∉ replaceList [p] [] s := by
  induction s using replaceList.induct [p] [] with
  | case1 => simp [replaceList]
  | case2 c rest hcond ih =>
    rw [replaceList, if_pos hcond]
    simpa using ih
  | case3 c rest hcond ih =>
    rw [replaceList, if_neg hcond]
    intro hmem
    rcases List.mem_cons.mp hmem with hc | hc
    · apply hcond
      subst hc
      simp [leadsWith]
    · exact ih hc

theorem toLowerAscii_eq_newline {c : Char} (h : toLowerAscii c = '\n') :
    c = '\n' := by
  unfold toLowerAscii at h
  cases hf : lowerPairs.find? (fun p => p.1 == c) with
  | none => rw [hf] at h; exact h
  | some p =>
    rw [hf] at h
    have hp := List.mem_of_find?_eq_some hf
    have hall : ∀ q ∈ lowerPairs, q.2 ≠ '\n' := by decide
    exact absurd h (hall p hp)

theorem isUpperAscii_toLowerAscii (c : Char) :
    isUpperAscii (toLowerAscii c) = false := by
  unfold toLowerAscii
  cases hf : lowerPairs.find? (fun p => p.1 == c) with
  | none =>
    unfold isUpperAscii
    rw [List.any_eq_false]
    intro p hp
    simpa using List.find?_eq_none.mp hf p hp
  | some p =>
    have hp := List.mem_of_find?_eq_some hf
    have hall : ∀ q ∈ lowerPairs, isUpperAscii q.2 = false := by decide
    exact hall p hp

theorem digitChar_mem (d : Nat) : digitChar d ∈ digitChars := by
  unfold digitChar
  split <;> decide

theorem natDigitsRev_ne_nil (n : Nat) : natDigitsRev n ≠ [] := by
  unfold natDigitsRev
  split <;> simp

theorem mem_natDigitsRev (n : Nat) : ∀ c ∈ natDigitsRev n, c ∈ digitChars := by
  induction n using natDigitsRev.induct with
  | case1 n hlt =>
    rw [natDigitsRev, if_pos hlt]
    intro c hc
    rw [List.mem_singleton] at hc
    subst hc
    exact digitChar_mem n
  | case2 n hlt ih =>
    rw [natDigitsRev, if_neg hlt]
    intro c hc
    rcases List.mem_cons.mp hc with hc | hc
    · subst hc; exact digitChar_mem _
    · exact ih c hc

theorem int_to_decimal_spec (n : Int) :
    isDecimalIntString (int_to_decimal n) ∧
      leadsWith naChars (int_to_decimal n) = false := by
  have hdig : ∀ c ∈ digitChars, ('<' == c) = false := by decide
  unfold int_to_decimal
  split
  · constructor
    · right
      refine ⟨(natDigitsRev n.natAbs).reverse, rfl, by simp [natDigitsRev_ne_nil], ?_⟩
      intro c hc
      exact mem_natDigitsRev _ c (List.mem_reverse.mp hc)
    · simp [naChars, leadsWith]
  · constructor
    · left
      refine ⟨by simp [natDigitsRev_ne_nil], ?_⟩
      intro c hc
      exact mem_natDigitsRev _ c (List.mem_reverse.mp hc)
    · cases hrev : (natDigitsRev n.toNat).reverse with
      | nil => exact absurd (by simpa using hrev) (natDigitsRev_ne_nil n.toNat)
      | cons c t =>
        have hc : c ∈ digitChars := by
          have : c ∈ (natDigitsRev n.toNat).reverse := by rw [hrev]; exact List.mem_cons_self c t
          exact mem_natDigitsRev _ c (List.mem_reverse.mp this)
        simp [naChars, leadsWith, hdig c hc]

/-- Claim C8: every cleaned object-column value is missing or a string
with no newline, no ASCII uppercase letter, and no leading or trailing
whitespace; every cleaned float-column value is missing or a decimal
integer string, and never the literal string rendered for pandas
missing values. -/
theorem c8_read_data_cleaning (v : Option (List Char)) (w : Option Int) :
    (clean_object_value v = none ∨
      ∃ s, clean_object_value v = some s ∧
        '\n' ∉ s ∧
        (∀ c ∈ s, isUpperAscii c = false) ∧
        (∀ c, s.head? = some c → isPySpace c = false) ∧
        (∀ c, s.getLast? = some c → isPySpace c = false)) ∧
    (clean_float_value w = none ∨
      ∃ s, clean_float_value w = some s ∧ isDecimalIntString s) ∧
    clean_float_value w ≠ some naChars := by
  refine ⟨?_, ?_, ?_⟩
  · cases v with
    | none => left; rfl
    | some x =>
      right
      refine ⟨clean_string_value x, rfl, ?_, ?_, ?_, ?_⟩
      · -- no newline survives the pipeline
        intro hmem
        unfold clean_string_value at hmem
        have h6 := mem_stripBy hmem
        obtain ⟨d, hd5, hd⟩ := List.mem_map.mp h6
        have hdn : d = '\n' := toLowerAscii_eq_newline hd
        subst hdn
        have h2 := mem_stripBy (mem_stripBy (mem_stripBy hd5))
        exact not_mem_replaceList_single '\n' _ h2
      · -- no uppercase after lowercasing
        intro c hmem
        unfold clean_string_value at hmem
        have h6 := mem_stripBy hmem
        obtain ⟨d, _, hd⟩ := List.mem_map.mp h6
        rw [← hd]
        exact isUpperAscii_toLowerAscii d
      · intro c hc
        exact head?_stripBy_false hc
      · intro c hc
        exact getLast?_stripBy_false hc
  · cases w with
    | none => left; rw [clean_float_value, if_pos (by decide)]
    | some n =>
      right
      obtain ⟨hdec, hlead⟩ := int_to_decimal_spec n
      exact ⟨int_to_decimal n, by rw [clean_float_value, if_neg (by simp [hlead])], hdec⟩
  · cases w with
    | none =>
      rw [clean_float_value, if_pos (by decide)]
      simp
    | some n =>
      obtain ⟨_, hlead⟩ := int_to_decimal_spec n
      rw [clean_float_value, if_neg (by simp [hlead])]
      intro heq
      have : int_to_decimal n = naChars := by simpa using heq
      rw [this] at hlead
      have : leadsWith naChars naChars = true := by decide
      rw [this] at hlead
      exact Bool.true_eq_false.mp hlead

/-! ## Field comparators (spec section 4.1; field list at
src/dedupe/csv_evaluation.py lines 63-68) -/

/-- Modelled from the spec: the closed tagged-variant enumeration of
supported comparator types (design notes, section 9).  The script's
field list declares exactly the types `String` and `Exact`. -/
inductive FieldType
  | stringType
  | exactType
deriving DecidableEq, Repr

/-- Levenshtein recursion with an explicit fuel argument (the fuel is
only inspected when both strings are nonempty, and one unit is spent
per such step, so any fuel at least the total length is enough). -/
def levFuel (f : Nat) (xs ys : List Char) : Nat :=
  match xs, ys with
  | [], ys => ys.length
  | x :: xs, [] => (x :: xs).length
  | x :: xs, y :: ys =>
    match f with
    | 0 => 0
    | g + 1 =>
      if x = y then levFuel g xs ys
      else 1 + min (levFuel g xs (y :: ys))
        (min (levFuel g (x :: xs) ys) (levFuel g xs ys))

/-- Modelled from the spec: unit-cost Levenshtein edit distance, the
core of the `String` (string-edit-distance) comparator.  The spec fixes
no particular string metric, only that it is a normalized edit
distance. -/
def lev (xs ys : List Char) : Nat :=
  levFuel (xs.length + ys.length) xs ys

theorem levFuel_congr : ∀ (f g : Nat) (xs ys : List Char),
    xs.length + ys.length ≤ f → xs.length + ys.length ≤ g →
    levFuel f xs ys = levFuel g xs ys := by
  intro f
  induction f with
  | zero =>
    intro g xs ys hf hg
    match xs, ys with
    | [], ys => cases g <;> rfl
    | x :: xs, [] => cases g <;> rfl
    | x :: xs, y :: ys => simp only [List.length_cons] at hf; omega
  | succ f ihf =>
    intro g xs ys hf hg
    match xs, ys with
    | [], ys => cases g <;> rfl
    | x :: xs, [] => cases g <;> rfl
    | x :: xs, y :: ys =>
      match g with
      | 0 => simp only [List.length_cons] at hg; omega
      | g + 1 =>
        show (if x = y then levFuel f xs ys
            else 1 + min (levFuel f xs (y :: ys))
              (min (levFuel f (x :: xs) ys) (levFuel f xs ys))) =
          (if x = y then levFuel g xs ys
            else 1 + min (levFuel g xs (y :: ys))
              (min (levFuel g (x :: xs) ys) (levFuel g xs ys)))
        simp only [List.length_cons] at hf hg
        by_cases hxy : x = y
        · rw [if_pos hxy, if_pos hxy,
            ihf g xs ys (by omega) (by omega)]
        · rw [if_neg hxy, if_neg hxy,
            ihf g xs (y :: ys) (by simp only [List.length_cons]; omega)
              (by simp only [List.length_cons]; omega),
            ihf g (x :: xs) ys (by simp only [List.length_cons]; omega)
              (by simp only [List.length_cons]; omega),
            ihf g xs ys (by omega) (by omega)]

theorem levFuel_nil_left (f : Nat) (ys : List Char) :
    levFuel f [] ys = ys.length := by
  cases f <;> rfl

theorem levFuel_cons_nil (f : Nat) (x : Char) (xs : List Char) :
    levFuel f (x :: xs) [] = (x :: xs).length := by
  cases f <;> rfl

theorem lev_nil_left (ys : List Char) : lev [] ys = ys.length :=
  levFuel_nil_left _ ys

theorem lev_cons_nil (x : Char) (xs : List Char) :
    lev (x :: xs) [] = (x :: xs).length :=
  levFuel_cons_nil _ x xs

theorem lev_cons_cons (x y : Char) (xs ys : List Char) :
    lev (x :: xs) (y :: ys) =
      if x = y then lev xs ys
      else 1 + min (lev xs (y :: ys)) (min (lev (x :: xs) ys) (lev xs ys)) := by
  show (if x = y then levFuel ((x :: xs).length + ys.length) xs ys
      else 1 + min (levFuel ((x :: xs).length + ys.length) xs (y :: ys))
        (min (levFuel ((x :: xs).length + ys.length) (x :: xs) ys)
          (levFuel ((x :: xs).length + ys.length) xs ys))) = _
  by_cases hxy : x = y
  · rw [if_pos hxy, if_pos hxy]
    exact levFuel_congr _ _ xs ys (by simp only [List.length_cons]; omega) le_rfl
  · rw [if_neg hxy, if_neg hxy,
      levFuel_congr _ (xs.length + (y :: ys).length) xs (y :: ys)
        (by simp only [List.length_cons]; omega)
        (by simp only [List.length_cons]; omega),
      levFuel_congr _ ((x :: xs).length + ys.length) (x :: xs) ys
        (by simp only [List.length_cons]; omega)
        (by simp only [List.length_cons]; omega),
      levFuel_congr _ (xs.length + ys.length) xs ys
        (by simp only [List.length_cons]; omega) le_rfl]
    rfl

/-- Modelled from the spec: the `String` comparator's bounded score, a
normalized edit distance (`1` on identical strings, and `Rat` division
by the zero length of two empty strings yields `0`, so empty = empty
also scores `1`). -/
def stringSim (x y : List Char) : Rat :=
  1 - (lev x y : Rat) / ((max x.length y.length : Nat) : Rat)

/-- Modelled from the spec (section 4.1):
`similarity(field_def, value_a, value_b) -> (score, is_missing)`.
Exact-type comparators return `1.0` iff the values are identical, else
`0.0`; when either value is the missing marker the comparator returns
the missing indicator and a neutral zero score rather than failing. -/
def similarity (ft : FieldType) (_hasMissing : Bool) (a b : Option (List Char)) :
    Rat × Bool :=
  match a, b with
  | some x, some y =>
    match ft with
    | .exactType => (if x = y then (1 : Rat) else 0, false)
    | .stringType => (stringSim x y, false)
  | _, _ => (0, true)

/-- Modelled from the spec: each comparator's maximum score (its scores
are bounded in `[0,1]`). -/
def maxScore (_ : FieldType) : Rat := 1

theorem lev_nil_right (xs : List Char) : lev xs [] = xs.length := by
  cases xs with
  | nil => rfl
  | cons x xs => exact lev_cons_nil x xs

theorem lev_comm (xs ys : List Char) : lev xs ys = lev ys xs := by
  suffices h : ∀ (n : Nat) (xs ys : List Char),
      xs.length + ys.length ≤ n → lev xs ys = lev ys xs from
    h (xs.length + ys.length) xs ys le_rfl
  intro n
  induction n with
  | zero =>
    intro xs ys h
    match xs, ys with
    | [], [] => rfl
    | x :: xs, _ => simp only [List.length_cons] at h; omega
    | [], y :: ys => simp only [List.length_cons] at h; omega
  | succ n ih =>
    intro xs ys h
    match xs, ys with
    | [], ys => rw [lev_nil_left, lev_nil_right]
    | x :: xs, [] => rw [lev_nil_left, lev_nil_right]
    | x :: xs, y :: ys =>
      rw [lev_cons_cons, lev_cons_cons]
      simp only [List.length_cons] at h
      by_cases hxy : x = y
      · rw [if_pos hxy, if_pos hxy.symm, ih xs ys (by omega)]
      · rw [if_neg hxy, if_neg (fun hyx => hxy hyx.symm),
          ih xs (y :: ys) (by simp only [List.length_cons]; omega),
          ih (x :: xs) ys (by simp only [List.length_cons]; omega),
          ih xs ys (by omega)]
        omega

theorem lev_self (xs : List Char) : lev xs xs = 0 := by
  induction xs with
  | nil => rfl
  | cons x xs ih => rw [lev_cons_cons, if_pos rfl, ih]

theorem stringSim_comm (x y : List Char) : stringSim x y = stringSim y x := by
  unfold stringSim
  rw [lev_comm, Nat.max_comm]

theorem stringSim_self (x : List Char) : stringSim x x = 1 := by
  unfold stringSim
  rw [lev_self]
  simp

theorem similarity_comm (ft : FieldType) (hm : Bool)
    (a b : Option (List Char)) :
    similarity ft hm a b = similarity ft hm b a := by
  cases a with
  | none => cases b <;> rfl
  | some x =>
    cases b with
    | none => rfl
    | some y =>
      cases ft with
      | stringType => simp only [similarity, stringSim_comm]
      | exactType =>
        simp only [similarity]
        by_cases h : x = y
        · rw [if_pos h, if_pos h.symm]
        · rw [if_neg h, if_neg (fun hyx => h hyx.symm)]

theorem similarity_self_max (ft : FieldType) (hm : Bool) (v : List Char) :
    (similarity ft hm (some v) (some v)).1 = maxScore ft := by
  cases ft with
  | stringType => simp only [similarity, stringSim_self, maxScore]
  | exactType => simp [similarity, maxScore]

/-- Claim C2: every comparator is symmetric in its two field values,
and on a non-missing value compared with itself it scores the
comparator's maximum. -/
theorem c2_similarity_symmetric_and_self_max (ft : FieldType) (hm : Bool)
    (a b : Option (List Char)) (v : List Char) :
    similarity ft hm a b = similarity ft hm b a ∧
    (similarity ft hm (some v) (some v)).1 = maxScore ft :=
  ⟨similarity_comm ft hm a b, similarity_self_max ft hm v⟩

/-! ## Canonicalizer (spec section 4.6; `dedupe.canonicalize` call at
src/dedupe/csv_evaluation.py lines 119-120) -/

/-- Modelled from the spec: most frequent value, ties broken by
first-seen order (the representative for numeric/exact fields). -/
def modeValue (vs : List (List Char)) : Option (List Char) :=
  vs.foldl (fun best v =>
    match best with
    | none => some v
    | some b => if vs.count v > vs.count b then some v else best) none

/-- Modelled from the spec: longest value, first-seen on ties (the
representative for free-text fields). -/
def longestValue (vs : List (List Char)) : Option (List Char) :=
  vs.foldl (fun best v =>
    match best with
    | none => some v
    | some b => if v.length > b.length then some v else best) none

/-- Modelled from the spec: the canonical value of one field across a
cluster — chosen among the non-missing values; a field entirely
missing across the cluster remains missing. -/
def canonicalField (ft : FieldType) (vs : List (Option (List Char))) :
    Option (List Char) :=
  match ft with
  | .exactType => modeValue (vs.filterMap id)
  | .stringType => longestValue (vs.filterMap id)

/-- Modelled from the spec: `dedupe.canonicalize` — one representative
field mapping for a cluster, each field selected independently.
Records are field-value lists aligned with the field-type list. -/
def canonicalize (fts : List FieldType)
    (recs : List (List (Option (List Char)))) : List (Option (List Char)) :=
  match fts with
  | [] => []
  | ft :: rest =>
    canonicalField ft (recs.map (fun r => r.headD none)) ::
      canonicalize rest (recs.map List.tail)

theorem canonicalField_singleton (ft : FieldType) (v : Option (List Char)) :
    canonicalField ft [v] = v := by
  cases v <;> cases ft <;> rfl

theorem canonicalize_length (fts : List FieldType)
    (recs : List (List (Option (List Char)))) :
    (canonicalize fts recs).length = fts.length := by
  induction fts generalizing recs with
  | nil => rfl
  | cons ft rest ih => simp [canonicalize, ih]

/-- Claim C7: canonicalization is total (it always yields a full field
mapping), a single-record cluster canonicalizes to that record's own
field mapping, and a field whose values across the cluster are
`[A, A, missing]` canonicalizes to `A`, marked non-missing. -/
theorem c7_canonicalize_total_singleton_mode (fts : List FieldType)
    (r : List (Option (List Char))) (recs : List (List (Option (List Char))))
    (ft : FieldType) (A : List Char) :
    (canonicalize fts recs).length = fts.length ∧
    (r.length = fts.length → canonicalize fts [r] = r) ∧
    canonicalField ft [some A, some A, none] = some A := by
  refine ⟨canonicalize_length fts recs, ?_, ?_⟩
  · induction fts generalizing r with
    | nil =>
      intro hr
      rw [List.length_eq_zero.mp hr]
      rfl
    | cons ft rest ih =>
      intro hr
      cases r with
      | nil => simp at hr
      | cons v r' =>
        rw [canonicalize]
        simp only [List.map_cons, List.map_nil, List.headD_cons, List.tail_cons]
        rw [canonicalField_singleton, ih r' (by simpa using hr)]
  · cases ft with
    | exactType =>
      show modeValue [A, A] = some A
      simp [modeValue]
    | stringType =>
      show longestValue [A, A] = some A
      simp [longestValue]

/-! ## Trained model and pairwise scorer (spec sections 3, 4.3) -/

/-- A field definition: name, comparator type, `has missing` flag
(the shape of the entries in the script's `fields` list,
src/dedupe/csv_evaluation.py lines 63-68, after validation). -/
structure FieldDef where
  name : String
  ftype : FieldType
  hasMissing : Bool
deriving DecidableEq, Repr

/-- Modelled from the spec: a Trained Model — ordered field
definitions, the selected predicate set (as indices into the predicate
template library), and classifier weights.  Immutable after training
and fully determining scoring. -/
structure TrainedModel where
  fieldDefs : List FieldDef
  predicateIds : List Nat
  weights : List Rat
  bias : Rat
deriving DecidableEq, Repr

/-- Modelled from the spec: `score(feature_vector)` — the classifier is
linear over field-similarity features; the monotone logistic link the
spec wraps around it is omitted, since it is a fixed injection and the
claims compare scores for equality. -/
def score (m : TrainedModel) (v : List Rat) : Rat :=
  m.bias + (List.zipWith (fun w x => w * x) m.weights v).sum

/-- Modelled from the spec: the feature vector of a candidate pair —
one bounded similarity feature and one missing-indicator feature per
field definition, in field-definition order. -/
def featurize (fds : List FieldDef) (ra rb : List (Option (List Char))) :
    List Rat :=
  match fds, ra, rb with
  | fd :: fds, va :: ra, vb :: rb =>
    let r := similarity fd.ftype fd.hasMissing va vb
    r.1 :: (if r.2 then 1 else 0) :: featurize fds ra rb
  | _, _, _ => []

/-- Modelled from the spec: the probability-like score the classifier
assigns to a candidate pair of records. -/
def pairScore (m : TrainedModel) (ra rb : List (Option (List Char))) : Rat :=
  score m (featurize m.fieldDefs ra rb)

theorem featurize_comm (fds : List FieldDef)
    (ra rb : List (Option (List Char))) :
    featurize fds ra rb = featurize fds rb ra := by
  induction fds generalizing ra rb with
  | nil => rfl
  | cons fd fds ih =>
    cases ra with
    | nil => cases rb <;> rfl
    | cons va ra =>
      cases rb with
      | nil => rfl
      | cons vb rb =>
        show _ :: _ :: featurize fds ra rb = _ :: _ :: featurize fds rb ra
        rw [similarity_comm fd.ftype fd.hasMissing va vb, ih]

theorem pairScore_comm (m : TrainedModel) (ra rb : List (Option (List Char))) :
    pairScore m ra rb = pairScore m rb ra := by
  unfold pairScore
  rw [featurize_comm]

/-! ## Model persistence (spec section 6; `deduper.write_settings` at
src/dedupe/csv_evaluation.py lines 98-99, `dedupe.StaticDedupe` at
lines 53-56) -/

/-- Modelled from the spec: one token of the serialized settings
artifact.  The settings file is an opaque binary artifact; it is
modelled as a stream of integer and string tokens. -/
inductive SettingsTok
  | int (i : Int)
  | str (s : String)
deriving DecidableEq, Repr

/-- Serialize a boolean flag. -/
def encodeBool (b : Bool) : List SettingsTok :=
  [.int (if b then 1 else 0)]

def decodeBool : List SettingsTok → Option (Bool × List SettingsTok)
  | .int 1 :: ts => some (true, ts)
  | .int 0 :: ts => some (false, ts)
  | _ => none

/-- Serialize a comparator type tag. -/
def encodeFieldType : FieldType → List SettingsTok
  | .stringType => [.int 0]
  | .exactType => [.int 1]

def decodeFieldType : List SettingsTok → Option (FieldType × List SettingsTok)
  | .int 0 :: ts => some (.stringType, ts)
  | .int 1 :: ts => some (.exactType, ts)
  | _ => none

/-- Serialize a predicate identifier. -/
def encodeNatTok (n : Nat) : List SettingsTok :=
  [.int (n : Int)]

def decodeNatTok : List SettingsTok → Option (Nat × List SettingsTok)
  | .int i :: ts => if i < 0 then none else some (i.toNat, ts)
  | _ => none

/-- Serialize a rational weight as numerator and denominator. -/
def encodeRat (q : Rat) : List SettingsTok :=
  [.int q.num, .int (q.den : Int)]

def decodeRat : List SettingsTok → Option (Rat × List SettingsTok)
  | .int n :: .int d :: ts =>
    if d ≤ 0 then none else some ((n : Rat) / ((d : Rat)), ts)
  | _ => none

/-- Serialize a field definition. -/
def encodeFieldDef (fd : FieldDef) : List SettingsTok :=
  .str fd.name :: (encodeFieldType fd.ftype ++ encodeBool fd.hasMissing)

def decodeFieldDef : List SettingsTok → Option (FieldDef × List SettingsTok)
  | .str name :: ts =>
    match decodeFieldType ts with
    | none => none
    | some (ft, ts1) =>
      match decodeBool ts1 with
      | none => none
      | some (hm, ts2) => some (⟨name, ft, hm⟩, ts2)
  | _ => none

/-- Serialize a list as its length followed by its serialized
elements. -/
def encodeListTok {α : Type} (enc : α → List SettingsTok) (l : List α) :
    List SettingsTok :=
  .int (l.length : Int) :: (l.map enc).flatten

/-- Decode exactly `n` consecutive elements. -/
def decodeCount {α : Type}
    (dec : List SettingsTok → Option (α × List SettingsTok)) :
    Nat → List SettingsTok → Option (List α × List SettingsTok)
  | 0, ts => some ([], ts)
  | n + 1, ts =>
    match dec ts with
    | none => none
    | some (a, ts1) =>
      match decodeCount dec n ts1 with
      | none => none
      | some (as, ts2) => some (a :: as, ts2)

def decodeListTok {α : Type}
    (dec : List SettingsTok → Option (α × List SettingsTok))
    (ts : List SettingsTok) : Option (List α × List SettingsTok) :=
  match decodeNatTok ts with
  | none => none
  | some (n, ts1) => decodeCount dec n ts1

/-- Modelled from the spec: `deduper.write_settings` — the serialized
trained model: field definitions, selected predicate set, classifier
weights (spec section 6, Model persistence). -/
def write_settings (m : TrainedModel) : List SettingsTok :=
  encodeListTok encodeFieldDef m.fieldDefs ++
    (encodeListTok encodeNatTok m.predicateIds ++
      (encodeListTok encodeRat m.weights ++ encodeRat m.bias))

/-- Decode a trained model from a settings stream, returning the
remaining tokens. -/
def decodeModel (ts : List SettingsTok) :
    Option (TrainedModel × List SettingsTok) :=
  match decodeListTok decodeFieldDef ts with
  | none => none
  | some (fds, ts1) =>
    match decodeListTok decodeNatTok ts1 with
    | none => none
    | some (pids, ts2) =>
      match decodeListTok decodeRat ts2 with
      | none => none
      | some (ws, ts3) =>
        match decodeRat ts3 with
        | none => none
        | some (b, ts4) => some (⟨fds, pids, ws, b⟩, ts4)

/-- Modelled from the spec: `dedupe.StaticDedupe(f)` — load a
previously written settings artifact, skipping training; fails on a
malformed artifact. -/
def StaticDedupe (ts : List SettingsTok) : Option TrainedModel :=
  match decodeModel ts with
  | some (m, []) => some m
  | _ => none

theorem decodeBool_round (b : Bool) (ts : List SettingsTok) :
    decodeBool (encodeBool b ++ ts) = some (b, ts) := by
  cases b <;> rfl

theorem decodeFieldType_round (ft : FieldType) (ts : List SettingsTok) :
    decodeFieldType (encodeFieldType ft ++ ts) = some (ft, ts) := by
  cases ft <;> rfl

theorem decodeNatTok_round (n : Nat) (ts : List SettingsTok) :
    decodeNatTok (encodeNatTok n ++ ts) = some (n, ts) := by
  simp [encodeNatTok, decodeNatTok]

theorem decodeRat_round (q : Rat) (ts : List SettingsTok) :
    decodeRat (encodeRat q ++ ts) = some (q, ts) := by
  show decodeRat (.int q.num :: .int (q.den : Int) :: ts) = some (q, ts)
  rw [decodeRat, if_neg (by exact_mod_cast Nat.not_le.mpr q.den_pos)]
  congr 1
  rw [Prod.mk.injEq]
  refine ⟨?_, rfl⟩
  push_cast
  exact Rat.num_div_den q

theorem decodeFieldDef_round (fd : FieldDef) (ts : List SettingsTok) :
    decodeFieldDef (encodeFieldDef fd ++ ts) = some (fd, ts) := by
  show decodeFieldDef (.str fd.name ::
    ((encodeFieldType fd.ftype ++ encodeBool fd.hasMissing) ++ ts)) = some (fd, ts)
  rw [decodeFieldDef, List.append_assoc]
  simp only [decodeFieldType_round, decodeBool_round]

theorem decodeCount_round {α : Type} (enc : α → List SettingsTok)
    (dec : List SettingsTok → Option (α × List SettingsTok))
    (h : ∀ a ts, dec (enc a ++ ts) = some (a, ts)) (l : List α)
    (ts : List SettingsTok) :
    decodeCount dec l.length ((l.map enc).flatten ++ ts) = some (l, ts) := by
  induction l with
  | nil => rfl
  | cons a l ih =>
    show decodeCount dec (l.length + 1) ((enc a ++ (l.map enc).flatten) ++ ts) = _
    rw [decodeCount, List.append_assoc]
    simp only [h, ih]

theorem decodeListTok_round {α : Type} (enc : α → List SettingsTok)
    (dec : List SettingsTok → Option (α × List SettingsTok))
    (h : ∀ a ts, dec (enc a ++ ts) = some (a, ts)) (l : List α)
    (ts : List SettingsTok) :
    decodeListTok dec (encodeListTok enc l ++ ts) = some (l, ts) := by
  show decodeListTok dec (.int (l.length : Int) :: ((l.map enc).flatten ++ ts)) = _
  rw [decodeListTok]
  have hn : decodeNatTok (.int (l.length : Int) :: ((l.map enc).flatten ++ ts)) =
      some (l.length, (l.map enc).flatten ++ ts) := by
    simp [decodeNatTok]
  simp only [hn, decodeCount_round enc dec h]

theorem decodeModel_round (m : TrainedModel) (ts : List SettingsTok) :
    decodeModel (write_settings m ++ ts) = some (m, ts) := by
  unfold write_settings decodeModel
  simp only [List.append_assoc,
    decodeListTok_round encodeFieldDef decodeFieldDef decodeFieldDef_round,
    decodeListTok_round encodeNatTok decodeNatTok decodeNatTok_round,
    decodeListTok_round encodeRat decodeRat decodeRat_round,
    decodeRat_round]

/-- Claim C3: serializing a trained model with `write_settings` and
loading it back with `StaticDedupe` yields a model that assigns every
feature vector the identical score. -/
theorem c3_settings_round_trip (m : TrainedModel) (v : List Rat) :
    StaticDedupe (write_settings m) = some m ∧
    ∃ m', StaticDedupe (write_settings m) = some m' ∧
      score m' v = score m v := by
  have hload : StaticDedupe (write_settings m) = some m := by
    unfold StaticDedupe
    have := decodeModel_round m []
    rw [List.append_nil] at this
    rw [this]
  exact ⟨hload, m, hload, rfl⟩

/-! ## Clusterer (spec section 4.5; `deduper.partition` at
src/dedupe/csv_evaluation.py line 105) -/

/-- The field values of the record keyed `k` (records are supplied
wholesale as a key -> field-mapping collection, spec section 6). -/
def recordFields (records : List (Nat × List (Option (List Char)))) (k : Nat) :
    List (Option (List Char)) :=
  match records.find? (fun r => r.1 == k) with
  | some r => r.2
  | none => []

/-- Modelled from the spec: the edge test of the cluster graph — two
distinct record keys are joined when their pair score reaches the
caller-supplied threshold (spec 4.5: qualifying pairs are those with
score >= threshold). -/
def scoreEdge (m : TrainedModel) (records : List (Nat × List (Option (List Char))))
    (t : Rat) (a b : Nat) : Bool :=
  decide (a ≠ b) && decide (t ≤ pairScore m (recordFields records a) (recordFields records b))

/-- Absorb one key into a component list: the new key is merged with
every component it has an edge into, other components are kept. -/
def addKey (E : Nat → Nat → Bool) (comps : List (List Nat)) (k : Nat) :
    List (List Nat) :=
  (k :: (comps.filter (fun c => c.any (fun j => E k j))).flatten) ::
    comps.filter (fun c => !(c.any (fun j => E k j)))

/-- Connected components of the graph `E` over `keys`. -/
def componentsOf (E : Nat → Nat → Bool) (keys : List Nat) : List (List Nat) :=
  keys.foldl (addKey E) []

/-- Modelled from the spec: a member's cluster confidence, the minimum
edge weight from the member to the other cluster members (spec 4.5:
the lower bound is preferred to avoid overstating confidence); a
singleton record, with no other members, has undefined confidence
(`none`). -/
def memberConfidence (m : TrainedModel)
    (records : List (Nat × List (Option (List Char)))) (c : List Nat) (k : Nat) :
    Option Rat :=
  match (c.filter (fun j => j != k)).map
      (fun j => pairScore m (recordFields records k) (recordFields records j)) with
  | [] => none
  | w :: ws => some (ws.foldl min w)

/-- Modelled from the spec: `deduper.partition(records, threshold)` —
clusters of record keys with per-record confidences.  Spec 4.5
additionally refines weakly-connected components into tighter
sub-clusters, but specifies no linkage criterion or cut rule for that
step; the model keeps the components of the thresholded pair-score
graph, the coarsest partition consistent with spec 4.5's input
contract.  The partition-exactness property proved below is
insensitive to the omitted refinement (refining a partition preserves
exactness); properties that depend on the refinement step are not
settled against this model. -/
def partition (m : TrainedModel) (records : List (Nat × List (Option (List Char))))
    (t : Rat) : List (List Nat × List (Option Rat)) :=
  (componentsOf (scoreEdge m records t) (records.map (fun r => r.1))).map
    (fun c => (c, c.map (memberConfidence m records c)))

/-! ### The component construction is an exact partition -/

theorem foldl_addKey_flatten_perm (E : Nat → Nat → Bool) :
    ∀ (keys : List Nat) (comps : List (List Nat)),
      ((keys.foldl (addKey E) comps).flatten).Perm (comps.flatten ++ keys) := by
  intro keys
  induction keys with
  | nil => intro comps; simp
  | cons k ks ih =>
    intro comps
    have step : ((addKey E comps k).flatten).Perm (k :: comps.flatten) := by
      unfold addKey
      rw [List.flatten_cons, List.cons_append, ← List.flatten_append]
      exact List.Perm.cons k ((List.filter_append_perm _ comps).flatten)
    have h1 := ih (addKey E comps k)
    have h2 : ((addKey E comps k).flatten ++ ks).Perm ((k :: comps.flatten) ++ ks) :=
      step.append_right ks
    have h3 : ((k :: comps.flatten) ++ ks).Perm (comps.flatten ++ (k :: ks)) :=
      List.perm_middle.symm
    exact (h1.trans h2).trans h3

theorem componentsOf_flatten_perm (E : Nat → Nat → Bool) (keys : List Nat) :
    ((componentsOf E keys).flatten).Perm keys := by
  have h := foldl_addKey_flatten_perm E keys []
  simpa [componentsOf] using h

theorem flatten_count_one {cs : List (List Nat)} {k : Nat}
    (h : cs.flatten.count k = 1) :
    (cs.filter (fun c => decide (k ∈ c))).length = 1 := by
  induction cs with
  | nil => simp at h
  | cons c cs ih =>
    rw [List.flatten_cons, List.count_append] at h
    by_cases hk : k ∈ c
    · have hc1 : 0 < c.count k := List.count_pos_iff.mpr hk
      have hrest : cs.flatten.count k = 0 := by omega
      have hnone : ∀ c' ∈ cs, k ∉ c' := by
        intro c' hc' hkc'
        exact absurd (List.count_eq_zero.mp hrest)
          (fun hnm => hnm (List.mem_flatten.mpr ⟨c', hc', hkc'⟩))
      rw [List.filter_cons_of_pos (by simpa using hk)]
      rw [List.length_cons]
      have : cs.filter (fun c => decide (k ∈ c)) = [] :=
        List.filter_eq_nil_iff.mpr (fun c' hc' => by simpa using hnone c' hc')
      rw [this]
      rfl
    · have hc0 : c.count k = 0 := List.count_eq_zero.mpr hk
      rw [hc0, Nat.zero_add] at h
      rw [List.filter_cons_of_neg (by simpa using hk)]
      exact ih h

theorem partition_fst (m : TrainedModel)
    (records : List (Nat × List (Option (List Char)))) (t : Rat) :
    (partition m records t).map (fun c => c.1) =
      componentsOf (scoreEdge m records t) (records.map (fun r => r.1)) := by
  unfold partition
  rw [List.map_map]
  exact List.map_id _

/-- Claim C1: for every record set and threshold, the clusters returned
by `partition` form an exact partition of the input record keys — their
members enumerate the keys exactly (a permutation), and each key lies
in exactly one cluster. -/
theorem c1_partition_is_exact (m : TrainedModel)
    (records : List (Nat × List (Option (List Char)))) (t : Rat)
    (h : (records.map (fun r => r.1)).Nodup) :
    (((partition m records t).map (fun c => c.1)).flatten).Perm
        (records.map (fun r => r.1)) ∧
    ∀ k ∈ records.map (fun r => r.1),
      (((partition m records t).map (fun c => c.1)).filter
        (fun c => decide (k ∈ c))).length = 1 := by
  rw [partition_fst]
  refine ⟨componentsOf_flatten_perm _ _, ?_⟩
  intro k hk
  apply flatten_count_one
  rw [(componentsOf_flatten_perm _ _).count_eq]
  exact List.count_eq_one_of_mem h hk

/-- A concrete trained model over the script's first and third fields
(a `String` field and an `Exact` has-missing field), used to exhibit
the clustering theorems at a concrete input. -/
def sampleModel : TrainedModel :=
  ⟨[⟨"Site name", .stringType, false⟩, ⟨"Zip", .exactType, true⟩],
    [0], [1, 0, 1, 0], 0⟩

/-- Three concrete records: two identical ones and an unrelated one. -/
def sampleRecords : List (Nat × List (Option (List Char))) :=
  [(1, [some ['a'], some ['6']]),
   (2, [some ['a'], some ['6']]),
   (3, [some ['x'], none])]

/-- Witness for C1: the partition property at a concrete model, record
set and threshold. -/
theorem c1_partition_is_exact_witness :
    (((partition sampleModel sampleRecords (7/10)).map (fun c => c.1)).flatten).Perm
        (sampleRecords.map (fun r => r.1)) ∧
    ∀ k ∈ sampleRecords.map (fun r => r.1),
      (((partition sampleModel sampleRecords (7/10)).map (fun c => c.1)).filter
        (fun c => decide (k ∈ c))).length = 1 :=
  c1_partition_is_exact sampleModel sampleRecords (7/10) (by decide)

/-! ## Model construction (`dedupe.Dedupe(fields)`,
src/dedupe/csv_evaluation.py lines 63-71; spec sections 7 and 9) and
training (`deduper.train()`, line 89; spec 4.3) -/

/-- Modelled from the spec: the fatal errors of the engine's error
taxonomy that the script can hit (spec section 7). -/
inductive DedupeError
  | configurationError
  | insufficientDataError
deriving DecidableEq, Repr

/-- A field declaration as the script writes it (lines 63-68): name,
comparator type tag as a string, `has missing` flag. -/
structure RawField where
  field : String
  type : String
  hasMissing : Bool
deriving DecidableEq, Repr

/-- Modelled from the spec: comparator selection by declared type
string over the closed enumeration of supported tags; unknown tags are
not selectable. -/
def parseFieldType (s : String) : Option FieldType :=
  if s = "String" then some .stringType
  else if s = "Exact" then some .exactType
  else none

/-- Modelled from the spec: `dedupe.Dedupe(fields)` — validate every
declared field at construction time, producing the model's ordered
field definitions or a ConfigurationError; scoring is defined only on
the validated result, so it can never see an unknown type. -/
def Dedupe (fields : List RawField) : Except DedupeError (List FieldDef) :=
  match fields with
  | [] => .ok []
  | f :: rest =>
    match parseFieldType f.type with
    | none => .error .configurationError
    | some ft =>
      match Dedupe rest with
      | .error e => .error e
      | .ok fds => .ok (⟨f.field, ft, f.hasMissing⟩ :: fds)

/-- Claim C6: a field list declaring an unsupported comparator type
string is rejected with a ConfigurationError at construction time; no
data model (hence no scoring) is ever produced from it. -/
theorem c6_unknown_field_type_configuration_error (fields : List RawField)
    (h : ∃ f ∈ fields, parseFieldType f.type = none) :
    Dedupe fields = .error .configurationError ∧
      ∀ fds, Dedupe fields ≠ .ok fds := by
  have herr : Dedupe fields = .error .configurationError := by
    obtain ⟨f, hf, hparse⟩ := h
    induction fields with
    | nil => exact absurd hf (List.not_mem_nil f)
    | cons g rest ih =>
      rw [Dedupe]
      rcases List.mem_cons.mp hf with rfl | hf'
      · rw [hparse]
      · cases hg : parseFieldType g.type with
        | none => rfl
        | some ft =>
          rw [ih hf']
  exact ⟨herr, fun fds hok => by rw [herr] at hok; exact Except.noConfusion hok⟩

/-- Witness for C6: the script's `Zip` field declared with the
unsupported tag `Custom` is rejected at construction. -/
theorem c6_unknown_field_type_witness :
    Dedupe [⟨"Zip", "Custom", true⟩] = .error .configurationError ∧
      ∀ fds, Dedupe [⟨"Zip", "Custom", true⟩] ≠ .ok fds :=
  c6_unknown_field_type_configuration_error [⟨"Zip", "Custom", true⟩]
    ⟨⟨"Zip", "Custom", true⟩, by decide, by decide⟩

/-- A labeled training example: a candidate pair of record keys with a
match (`true`) / distinct (`false`) label. -/
structure LabeledPair where
  left : Nat
  right : Nat
  isMatch : Bool
deriving DecidableEq, Repr

/-- Modelled from the spec: fitting classifier weights from the
accumulated labels.  The regularized maximum-likelihood fit itself is
not specified by the spec; the produced model records the field
definitions and the class counts, which is all the error-handling
claims observe. -/
def fitModel (fds : List FieldDef) (examples : List LabeledPair) : TrainedModel :=
  ⟨fds, [],
    [((examples.filter (fun e => e.isMatch)).length : Rat),
      ((examples.filter (fun e => !e.isMatch)).length : Rat)], 0⟩

/-- Modelled from the spec: `deduper.train()` — training fails with
InsufficientDataError when either class (match or distinct) has no
labeled example (spec 4.3: both classes required, surfaced before any
partial model is persisted). -/
def train (fds : List FieldDef) (examples : List LabeledPair) :
    Except DedupeError TrainedModel :=
  if (examples.filter (fun e => e.isMatch)).length = 0 ∨
      (examples.filter (fun e => !e.isMatch)).length = 0 then
    .error .insufficientDataError
  else
    .ok (fitModel fds examples)

/-- The two files the training branch of the script persists
(src/dedupe/csv_evaluation.py lines 92-99): the training log and the
settings file. -/
structure SessionFiles where
  trainingFile : Option (List LabeledPair)
  settingsFile : Option (List SettingsTok)
deriving DecidableEq, Repr

/-- The script's training sequence (lines 89-99): `deduper.train()`,
then `write_training`, then `write_settings`.  A training error
propagates as an exception before either file is opened, so the
persisted state is returned unchanged. -/
def trainingSession (fds : List FieldDef) (files : SessionFiles)
    (examples : List LabeledPair) :
    SessionFiles × Except DedupeError TrainedModel :=
  match train fds examples with
  | .error e => (files, .error e)
  | .ok m =>
    ({ trainingFile := some examples, settingsFile := some (write_settings m) },
      .ok m)

/-- Claim C5: with zero labeled examples of one class, training fails
with InsufficientDataError, and the persisted state (training log and
settings file) is unchanged — in particular no settings file is
written. -/
theorem c5_insufficient_data_no_write (fds : List FieldDef)
    (files : SessionFiles) (examples : List LabeledPair)
    (h : (examples.filter (fun e => e.isMatch)).length = 0 ∨
      (examples.filter (fun e => !e.isMatch)).length = 0) :
    trainingSession fds files examples =
      (files, .error .insufficientDataError) := by
  unfold trainingSession train
  rw [if_pos h]

/-- Witness for C5: one match-labeled example and no distinct-labeled
example leaves an empty persisted state untouched. -/
theorem c5_insufficient_data_witness :
    trainingSession [] ⟨none, none⟩ [⟨1, 2, true⟩] =
      (⟨none, none⟩, .error .insufficientDataError) :=
  c5_insufficient_data_no_write [] ⟨none, none⟩ [⟨1, 2, true⟩]
    (Or.inr (by decide))

/-! ## The result-writing stage
(src/dedupe/csv_evaluation.py lines 114-160) -/

/-- The script's only failure mode modelled here: reading a python
name that was never bound (a `NameError`). -/
inductive ScriptError
  | nameError
deriving DecidableEq, Repr

/-- The value of the `canonical_rep` variable after the membership
loop (lines 116-126): each iteration rebinds it to the canonicalized
representative of the current cluster; when the loop body never runs
the name stays unbound (`none`). -/
def membershipLoopRep (fts : List FieldType)
    (df : Nat → List (Option (List Char)))
    (clusters : List (List Nat × List Rat)) :
    Option (List (Option (List Char))) :=
  clusters.foldl (fun _ cl => some (canonicalize fts (cl.1.map df))) none

/-- The header construction of the output stage (lines 136-143): the
script inserts "Cluster ID" and "confidence_score" in front of the
input heading row and appends one `canonical_<key>` column per key of
`canonical_rep` — a read of `canonical_rep`, which raises `NameError`
when the membership loop never bound it. -/
def outputHeader (fieldNames : List String) (fts : List FieldType)
    (df : Nat → List (Option (List Char)))
    (clusters : List (List Nat × List Rat)) (headingRow : List String) :
    Except ScriptError (List String) :=
  match membershipLoopRep fts df clusters with
  | none => .error .nameError
  | some _ => .ok ("Cluster ID" :: "confidence_score" :: headingRow ++
      fieldNames.map (fun k => "canonical_" ++ k))

theorem membershipLoopRep_cons (fts : List FieldType)
    (df : Nat → List (Option (List Char)))
    (cl : List Nat × List Rat) (cls : List (List Nat × List Rat)) :
    ∃ rep, membershipLoopRep fts df (cl :: cls) = some rep := by
  unfold membershipLoopRep
  rw [List.foldl_cons]
  suffices haux : ∀ (cls : List (List Nat × List Rat))
      (x : List (Option (List Char))),
      ∃ rep, cls.foldl
        (fun _ cl => some (canonicalize fts (cl.1.map df))) (some x) =
          some rep from haux cls _
  intro cls
  induction cls with
  | nil => exact fun x => ⟨x, rfl⟩
  | cons c cs ih =>
    intro x
    rw [List.foldl_cons]
    exact ih _

/-- Claim C9: with an empty cluster list the output stage fails with a
`NameError` — the header reads `canonical_rep`, which the membership
loop never assigned; with at least one cluster the header is
produced. -/
theorem c9_empty_partition_header_fails (fieldNames : List String)
    (fts : List FieldType) (df : Nat → List (Option (List Char)))
    (clusters : List (List Nat × List Rat)) (headingRow : List String) :
    outputHeader fieldNames fts df [] headingRow = .error .nameError ∧
    (clusters ≠ [] →
      ∃ hdr, outputHeader fieldNames fts df clusters headingRow = .ok hdr) := by
  constructor
  · rfl
  · intro hne
    match clusters with
    | [] => exact absurd rfl hne
    | cl :: cls =>
      obtain ⟨rep, hrep⟩ := membershipLoopRep_cons fts df cl cls
      rw [outputHeader, hrep]
      exact ⟨_, rfl⟩

/-- The members of a cluster the membership loop actually records:
python's `zip(id_set, scores)` (line 121) pairs members with scores
positionally and drops any unmatched tail. -/
def clusterMembers (cl : List Nat × List Rat) : List Nat :=
  (cl.1.zip cl.2).map (fun p => p.1)

/-- The cluster index `cluster_membership` holds for record `r` after
scanning the clusters `cls`, the first of which has enumeration index
`i`: members of every cluster are assigned in order, so a later
cluster's entry overwrites an earlier one's. -/
def clusterIdOf (r : Nat) : Nat → List (List Nat × List Rat) → Option Nat
  | _, [] => none
  | i, cl :: cls =>
    match clusterIdOf r (i + 1) cls with
    | some j => some j
    | none => if r ∈ clusterMembers cl then some i else none

/-- The "cluster id" entry of `cluster_membership[r]`
(src/dedupe/csv_evaluation.py lines 114-126). -/
def cluster_membership (clusters : List (List Nat × List Rat)) (r : Nat) :
    Option Nat :=
  clusterIdOf r 0 clusters

/-- The value of `singleton_id` entering the row loop (line 128):
`cluster_id + 1`, where `cluster_id` is the enumeration index of the
last cluster, or its initial value `0` (line 115) when there is no
cluster. -/
def singleton_id (clusters : List (List Nat × List Rat)) : Nat :=
  (match clusters with
   | [] => 0
   | _ => clusters.length - 1) + 1

/-- The row loop (lines 145-160) projected to the written "Cluster ID"
column, as (row id, cluster id) pairs: a row id found in
`cluster_membership` gets its cluster id; any other row gets the
current `singleton_id`, which is then incremented. -/
def assignClusterIds (memb : Nat → Option Nat) :
    Nat → List Nat → List (Nat × Nat)
  | _, [] => []
  | sid, r :: rs =>
    match memb r with
    | some cid => (r, cid) :: assignClusterIds memb sid rs
    | none => (r, sid) :: assignClusterIds memb (sid + 1) rs

theorem clusterMembers_subset (cl : List Nat × List Rat) :
    clusterMembers cl ⊆ cl.1 := by
  intro x hx
  obtain ⟨⟨a, b⟩, hab, rfl⟩ := List.mem_map.mp hx
  exact (List.of_mem_zip hab).1

theorem clusterMembers_eq_of_align {cl : List Nat × List Rat}
    (h : cl.1.length = cl.2.length) : clusterMembers cl = cl.1 :=
  List.map_fst_zip cl.1 cl.2 (le_of_eq h)

theorem clusterIdOf_some {r : Nat} {cls : List (List Nat × List Rat)} :
    ∀ {i j : Nat}, clusterIdOf r i cls = some j →
      ∃ k cl, j = i + k ∧ cls[k]? = some cl ∧ r ∈ clusterMembers cl := by
  induction cls with
  | nil =>
    intro i j h
    rw [clusterIdOf] at h
    exact absurd h (by simp)
  | cons cl cls ih =>
    intro i j h
    rw [clusterIdOf] at h
    cases hrec : clusterIdOf r (i + 1) cls with
    | some j' =>
      rw [hrec] at h
      obtain rfl : j' = j := by simpa using h
      obtain ⟨k, cl', hk, hget, hmem⟩ := ih hrec
      exact ⟨k + 1, cl', by omega, by simpa using hget, hmem⟩
    | none =>
      rw [hrec] at h
      by_cases hm : r ∈ clusterMembers cl
      · rw [if_pos hm] at h
        obtain rfl : i = j := by simpa using h
        exact ⟨0, cl, by omega, by simp, hm⟩
      · rw [if_neg hm] at h
        exact absurd h (by simp)

theorem clusterIdOf_isSome {r : Nat} {cls : List (List Nat × List Rat)} :
    ∀ {k : Nat} {cl : List Nat × List Rat}, cls[k]? = some cl →
      r ∈ clusterMembers cl → ∀ i, ∃ j, clusterIdOf r i cls = some j := by
  induction cls with
  | nil => intro k cl hget; simp at hget
  | cons cl0 cls ih =>
    intro k cl hget hmem i
    rw [clusterIdOf]
    cases hrec : clusterIdOf r (i + 1) cls with
    | some j' => exact ⟨j', rfl⟩
    | none =>
      cases k with
      | zero =>
        obtain rfl : cl0 = cl := by simpa using hget
        rw [if_pos hmem]
        exact ⟨i, rfl⟩
      | succ k =>
        obtain ⟨j', hj'⟩ := ih (by simpa using hget) hmem (i + 1)
        rw [hj'] at hrec
        exact absurd hrec (by simp)

theorem disjoint_index_unique {clusters : List (List Nat × List Rat)}
    (hdis : clusters.Pairwise (fun c c' => ∀ x ∈ c.1, x ∉ c'.1))
    {i j : Nat} {cl cl' : List Nat × List Rat} {r : Nat}
    (hi : clusters[i]? = some cl) (hj : clusters[j]? = some cl')
    (hri : r ∈ cl.1) (hrj : r ∈ cl'.1) : i = j := by
  obtain ⟨hilen, hieq⟩ := List.getElem?_eq_some.mp hi
  obtain ⟨hjlen, hjeq⟩ := List.getElem?_eq_some.mp hj
  rcases Nat.lt_trichotomy i j with hlt | heq | hgt
  · have := List.pairwise_iff_getElem.mp hdis i j hilen hjlen hlt
    rw [hieq, hjeq] at this
    exact absurd hrj (this r hri)
  · exact heq
  · have := List.pairwise_iff_getElem.mp hdis j i hjlen hilen hgt
    rw [hieq, hjeq] at this
    exact absurd hri (this r hrj)

theorem cluster_membership_some {clusters : List (List Nat × List Rat)}
    {r i : Nat} (h : cluster_membership clusters r = some i) :
    ∃ cl, clusters[i]? = some cl ∧ r ∈ cl.1 := by
  obtain ⟨k, cl, hk, hget, hmem⟩ := clusterIdOf_some h
  obtain rfl : i = k := by omega
  exact ⟨cl, hget, clusterMembers_subset cl hmem⟩

theorem cluster_membership_isSome {clusters : List (List Nat × List Rat)}
    (hal : ∀ cl ∈ clusters, cl.1.length = cl.2.length) {r : Nat}
    {cl : List Nat × List Rat} (hcl : cl ∈ clusters) (hr : r ∈ cl.1) :
    ∃ i, cluster_membership clusters r = some i := by
  obtain ⟨k, hk⟩ := List.getElem?_of_mem hcl
  have hmem : r ∈ clusterMembers cl := by
    rw [clusterMembers_eq_of_align (hal cl hcl)]
    exact hr
  exact clusterIdOf_isSome hk hmem 0

theorem cluster_membership_index {clusters : List (List Nat × List Rat)}
    (hdis : clusters.Pairwise (fun c c' => ∀ x ∈ c.1, x ∉ c'.1))
    {r i : Nat} {cl : List Nat × List Rat}
    (h : cluster_membership clusters r = some i) (hcl : cl ∈ clusters)
    (hr : r ∈ cl.1) : clusters[i]? = some cl := by
  obtain ⟨cl', hget', hr'⟩ := cluster_membership_some h
  obtain ⟨k, hk⟩ := List.getElem?_of_mem hcl
  have heq : i = k := disjoint_index_unique hdis hget' hk hr' hr
  rw [heq, hk]

theorem assignClusterIds_mem {memb : Nat → Option Nat} :
    ∀ {sid : Nat} {rs : List Nat} {p : Nat × Nat},
      p ∈ assignClusterIds memb sid rs →
      memb p.1 = some p.2 ∨ (memb p.1 = none ∧ sid ≤ p.2) := by
  intro sid rs
  induction rs generalizing sid with
  | nil => intro p h; simp [assignClusterIds] at h
  | cons r rs ih =>
    intro p h
    rw [assignClusterIds] at h
    cases hm : memb r with
    | some cid =>
      rw [hm] at h
      rcases List.mem_cons.mp h with rfl | h'
      · exact Or.inl hm
      · exact ih h'
    | none =>
      rw [hm] at h
      rcases List.mem_cons.mp h with rfl | h'
      · exact Or.inr ⟨hm, le_rfl⟩
      · rcases ih h' with h1 | ⟨h1, h2⟩
        · exact Or.inl h1
        · exact Or.inr ⟨h1, by omega⟩

theorem assignClusterIds_fresh (memb : Nat → Option Nat) :
    ∀ (sid : Nat) (rs : List Nat),
      ((assignClusterIds memb sid rs).filter
        (fun p => (memb p.1).isNone)).map (fun p => p.2) =
      List.range' sid (rs.countP (fun r => (memb r).isNone)) := by
  intro sid rs
  induction rs generalizing sid with
  | nil => rfl
  | cons r rs ih =>
    rw [assignClusterIds]
    cases hm : memb r with
    | some cid =>
      rw [List.filter_cons_of_neg (by simp [hm]), List.countP_cons]
      simpa [hm] using ih sid
    | none =>
      rw [List.filter_cons_of_pos (by simp [hm]), List.map_cons,
        List.countP_cons]
      have hone : (if (fun x => (memb x).isNone) r = true then 1 else 0) = 1 := by
        simp [hm]
      rw [hone, List.range'_succ, ih (sid + 1)]

theorem clusterRel_iff {clusters : List (List Nat × List Rat)}
    (hal : ∀ cl ∈ clusters, cl.1.length = cl.2.length)
    (hdis : clusters.Pairwise (fun c c' => ∀ x ∈ c.1, x ∉ c'.1))
    {a b : Nat × Nat}
    (ha : cluster_membership clusters a.1 = some a.2 ∨
      (cluster_membership clusters a.1 = none ∧ clusters.length ≤ a.2))
    (hb : cluster_membership clusters b.1 = some b.2 ∨
      (cluster_membership clusters b.1 = none ∧ clusters.length ≤ b.2))
    (hab : cluster_membership clusters a.1 = none →
      cluster_membership clusters b.1 = none → a.2 ≠ b.2) :
    a.2 = b.2 ↔ ∃ cl ∈ clusters, a.1 ∈ cl.1 ∧ b.1 ∈ cl.1 := by
  rcases ha with haS | ⟨haN, haGe⟩
  · rcases hb with hbS | ⟨hbN, hbGe⟩
    · constructor
      · intro heq
        obtain ⟨cl, hget, hr⟩ := cluster_membership_some haS
        obtain ⟨cl', hget', hr'⟩ := cluster_membership_some hbS
        rw [heq, hget'] at hget
        have hcc : cl' = cl := by simpa using hget
        rw [hcc] at hget' hr'
        obtain ⟨hlen, hgeteq⟩ := List.getElem?_eq_some.mp hget'
        exact ⟨cl, hgeteq ▸ List.getElem_mem hlen, hr, hr'⟩
      · rintro ⟨cl, hcl, hra, hrb⟩
        have h1 : clusters[a.2]? = some cl :=
          cluster_membership_index hdis haS hcl hra
        have h2 : clusters[b.2]? = some cl :=
          cluster_membership_index hdis hbS hcl hrb
        exact disjoint_index_unique hdis h1 h2 hra hra
    · have halen : a.2 < clusters.length := by
        obtain ⟨cl, hget, _⟩ := cluster_membership_some haS
        exact (List.getElem?_eq_some.mp hget).1
      refine iff_of_false (by omega) ?_
      rintro ⟨cl, hcl, _, hrb⟩
      obtain ⟨i, hi⟩ := cluster_membership_isSome hal hcl hrb
      rw [hbN] at hi
      exact Option.noConfusion hi
  · rcases hb with hbS | ⟨hbN, hbGe⟩
    · have hblen : b.2 < clusters.length := by
        obtain ⟨cl, hget, _⟩ := cluster_membership_some hbS
        exact (List.getElem?_eq_some.mp hget).1
      refine iff_of_false (by omega) ?_
      rintro ⟨cl, hcl, hra, _⟩
      obtain ⟨i, hi⟩ := cluster_membership_isSome hal hcl hra
      rw [haN] at hi
      exact Option.noConfusion hi
    · refine iff_of_false (hab haN hbN) ?_
      rintro ⟨cl, hcl, hra, _⟩
      obtain ⟨i, hi⟩ := cluster_membership_isSome hal hcl hra
      rw [haN] at hi
      exact Option.noConfusion hi

theorem assignClusterIds_pairwise {clusters : List (List Nat × List Rat)}
    (hal : ∀ cl ∈ clusters, cl.1.length = cl.2.length)
    (hdis : clusters.Pairwise (fun c c' => ∀ x ∈ c.1, x ∉ c'.1)) :
    ∀ (sid : Nat), clusters.length ≤ sid → ∀ (rs : List Nat),
      (assignClusterIds (cluster_membership clusters) sid rs).Pairwise
        (fun a b => a.2 = b.2 ↔ ∃ cl ∈ clusters, a.1 ∈ cl.1 ∧ b.1 ∈ cl.1) := by
  intro sid hsid rs
  induction rs generalizing sid with
  | nil => exact List.Pairwise.nil
  | cons r rs ih =>
    rw [assignClusterIds]
    cases hm : cluster_membership clusters r with
    | some cid =>
      rw [List.pairwise_cons]
      constructor
      · intro b hb
        apply clusterRel_iff hal hdis (Or.inl hm)
        · rcases assignClusterIds_mem hb with h1 | ⟨h1, h2⟩
          · exact Or.inl h1
          · exact Or.inr ⟨h1, le_trans hsid h2⟩
        · intro hra _
          rw [hm] at hra
          exact Option.noConfusion hra
      · exact ih sid hsid
    | none =>
      rw [List.pairwise_cons]
      constructor
      · intro b hb
        apply clusterRel_iff hal hdis (Or.inr ⟨hm, hsid⟩)
        · rcases assignClusterIds_mem hb with h1 | ⟨h1, h2⟩
          · exact Or.inl h1
          · exact Or.inr ⟨h1, by omega⟩
        · intro _ hbN
          rcases assignClusterIds_mem hb with h1 | ⟨_, h2⟩
          · rw [hbN] at h1
            exact absurd h1 (by simp)
          · show sid ≠ b.2
            omega
      · exact ih (sid + 1) (by omega)

/-- Claim C10: in the written rows, two distinct rows carry the same
"Cluster ID" iff their record ids lie in the same cluster returned by
`partition`; the unclustered rows receive consecutive fresh ids
starting one past the largest cluster id, so they collide neither with
a cluster id nor with each other. -/
theorem c10_cluster_id_assignment (clusters : List (List Nat × List Rat))
    (rowIds : List Nat)
    (hal : ∀ cl ∈ clusters, cl.1.length = cl.2.length)
    (hdis : clusters.Pairwise (fun c c' => ∀ x ∈ c.1, x ∉ c'.1))
    (hne : clusters ≠ []) :
    (assignClusterIds (cluster_membership clusters) (singleton_id clusters)
        rowIds).Pairwise
      (fun a b => a.2 = b.2 ↔ ∃ cl ∈ clusters, a.1 ∈ cl.1 ∧ b.1 ∈ cl.1) ∧
    singleton_id clusters = clusters.length ∧
    ((assignClusterIds (cluster_membership clusters) (singleton_id clusters)
        rowIds).filter
      (fun p => (cluster_membership clusters p.1).isNone)).map (fun p => p.2) =
      List.range' (singleton_id clusters)
        (rowIds.countP (fun r => (cluster_membership clusters r).isNone)) := by
  have hsid : singleton_id clusters = clusters.length := by
    match clusters with
    | [] => exact absurd rfl hne
    | cl :: cls =>
      show (cl :: cls).length - 1 + 1 = (cl :: cls).length
      simp only [List.length_cons]
      omega
  exact ⟨assignClusterIds_pairwise hal hdis _ (le_of_eq hsid.symm) rowIds,
    hsid, assignClusterIds_fresh _ _ _⟩

/-- Two concrete clusters with aligned confidences. -/
def sampleClusters : List (List Nat × List Rat) :=
  [([1, 2], [1, 1]), ([3], [1])]

/-- Witness for C10 on two concrete clusters and five rows, two of
them unclustered. -/
theorem c10_cluster_id_assignment_witness :
    (assignClusterIds (cluster_membership sampleClusters)
        (singleton_id sampleClusters) [1, 2, 3, 7, 8]).Pairwise
      (fun a b => a.2 = b.2 ↔
        ∃ cl ∈ sampleClusters, a.1 ∈ cl.1 ∧ b.1 ∈ cl.1) ∧
    singleton_id sampleClusters = sampleClusters.length ∧
    ((assignClusterIds (cluster_membership sampleClusters)
        (singleton_id sampleClusters) [1, 2, 3, 7, 8]).filter
      (fun p => (cluster_membership sampleClusters p.1).isNone)).map
        (fun p => p.2) =
      List.range' (singleton_id sampleClusters)
        (([1, 2, 3, 7, 8] : List Nat).countP
          (fun r => (cluster_membership sampleClusters r).isNone)) :=
  c10_cluster_id_assignment sampleClusters [1, 2, 3, 7, 8]
    (by decide) (by decide) (by decide)

end CsvDedupe
